import Mathlib

/-!
Verification of the `expected_returns` module of the Quantitative-Trading
repository (`src/pypfopt/expected_returns.py`).

The module is embedded shallowly over the rationals:

* labelled vectors (`pd.Series`) become the structure `Series n`
  (an index of labels together with rational values);
* matrices become Mathlib matrices over `ℚ`;
* `np.linalg.inv` / `np.linalg.solve`, which raise `LinAlgError` on a
  singular matrix, become `Option`-valued computations guarded by a
  determinant test, with the inverse realised computably as
  `det⁻¹ • adjugate` (equal to Mathlib's `Matrix.inv` over a field);
* price/return tables (`pd.DataFrame`) become lists of labelled rows whose
  cells are `Option ℚ` (`none` plays the role of a missing value / NaN).
-/

namespace ExpectedReturns

/-- A `pd.Series` of length `n`: labels (`index`) together with values. -/
structure Series (n : ℕ) where
  index : Fin n → String
  values : Fin n → ℚ

instance {n : ℕ} : DecidableEq (Series n) := fun a b =>
  decidable_of_iff (a.index = b.index ∧ a.values = b.values)
    (by cases a; cases b; simp)

/-- The function `np.diag` applied to a square matrix: its diagonal as a vector. -/
def npDiag {k : ℕ} (M : Matrix (Fin k) (Fin k) ℚ) : Fin k → ℚ := fun i => M i i

/-- Computable matrix inverse over `ℚ`: `det⁻¹ • adjugate`.  It agrees with
Mathlib's `Matrix.inv` (see `npInv_eq_inv`); callers guard singularity with a
determinant test, mirroring the `LinAlgError` raised by `np.linalg.inv`. -/
def npInv {n : ℕ} (M : Matrix (Fin n) (Fin n) ℚ) : Matrix (Fin n) (Fin n) ℚ :=
  (M.det)⁻¹ • M.adjugate

/-- Embedding of `black_litterman_return` (lines 123-130 of
`expected_returns.py`) after the two optional arguments have been filled in:

    Omega_inv = np.diag(1.0 / np.diag(Omega))
    P_Omega_inv = P.T @ Omega_inv
    tau_Sigma_inv = np.linalg.inv(tau * Sigma)
    A = tau_Sigma_inv + P_Omega_inv @ P
    b = tau_Sigma_inv.dot(Pi) + P_Omega_inv.dot(Q)
    x = np.linalg.solve(A, b)
    return pd.Series(x, index=Pi.index)

`np.linalg.inv` and `np.linalg.solve` raise on a singular argument, which the
embedding renders as `none`. -/
def black_litterman_return {n k : ℕ} (Pi : Series n)
    (Sigma : Matrix (Fin n) (Fin n) ℚ) (Q : Fin k → ℚ)
    (Omega : Matrix (Fin k) (Fin k) ℚ) (P : Matrix (Fin k) (Fin n) ℚ)
    (tau : ℚ) : Option (Series n) :=
  let Omega_inv : Matrix (Fin k) (Fin k) ℚ :=
    Matrix.diagonal (fun i => 1 / Omega i i)
  let P_Omega_inv : Matrix (Fin n) (Fin k) ℚ := P.transpose * Omega_inv
  if (tau • Sigma).det = 0 then none
  else
    let tau_Sigma_inv := npInv (tau • Sigma)
    let A := tau_Sigma_inv + P_Omega_inv * P
    let b := tau_Sigma_inv.mulVec Pi.values + P_Omega_inv.mulVec Q
    if A.det = 0 then none
    else some ⟨Pi.index, (npInv A).mulVec b⟩

/-- Embedding of the optional-argument surface of `black_litterman_return`
when only `Omega` may be absent (`P` passed explicitly):

    if Omega is None:
        Omega = np.diag(np.diag(tau * P @ Sigma @ P.T))
-/
def blackLittermanOptOmega {n k : ℕ} (Pi : Series n)
    (Sigma : Matrix (Fin n) (Fin n) ℚ) (Q : Fin k → ℚ)
    (OmegaOpt : Option (Matrix (Fin k) (Fin k) ℚ))
    (P : Matrix (Fin k) (Fin n) ℚ) (tau : ℚ) : Option (Series n) :=
  let Omega :=
    match OmegaOpt with
    | none => Matrix.diagonal (npDiag (tau • (P * Sigma * P.transpose)))
    | some O0 => O0
  black_litterman_return Pi Sigma Q Omega P tau

/-- Embedding of the optional-argument surface of `black_litterman_return`
with both `P` and `Omega` possibly absent (lines 118-121):

    if P is None:
        P = np.eye(Sigma.shape[0])
    if Omega is None:
        Omega = np.diag(np.diag(tau * P @ Sigma @ P.T))

When `P` is absent it is the `n × n` identity, so the views dimension is the
asset dimension `n`. -/
def blackLittermanOpt {n : ℕ} (Pi : Series n)
    (Sigma : Matrix (Fin n) (Fin n) ℚ) (Q : Fin n → ℚ)
    (OmegaOpt : Option (Matrix (Fin n) (Fin n) ℚ))
    (POpt : Option (Matrix (Fin n) (Fin n) ℚ)) (tau : ℚ) : Option (Series n) :=
  let P :=
    match POpt with
    | none => (1 : Matrix (Fin n) (Fin n) ℚ)
    | some P0 => P0
  let Omega :=
    match OmegaOpt with
    | none => Matrix.diagonal (npDiag (tau • (P * Sigma * P.transpose)))
    | some O0 => O0
  black_litterman_return Pi Sigma Q Omega P tau

/-- A data-frame row over `m` asset columns; `none` is a missing value
(`NaN`). -/
abbrev Row (m : ℕ) := Fin m → Option ℚ

/-- A `pd.DataFrame` with `m` asset columns: time-labelled rows in time
order.  Column order is carried by the `Fin m` indexing. -/
abbrev Frame (m : ℕ) := List (ℕ × Row m)

/-- Forward fill of one row given the last filled values (`fillna(method="pad")`,
the default `fill_method` of `DataFrame.pct_change`). -/
def ffill {m : ℕ} (last : Fin m → Option ℚ) (r : Row m) : Row m := fun j =>
  match r j with
  | some v => some v
  | none => last j

/-- One `pct_change` cell: `filled_t / filled_(t-1) - 1`; `NaN` when either
operand is missing. -/
def pctCell (prev cur : Option ℚ) : Option ℚ :=
  match prev, cur with
  | some p, some c => some (c / p - 1)
  | _, _ => none

def pctChangeAux {m : ℕ} (last : Fin m → Option ℚ) : Frame m → Frame m
  | [] => []
  | (d, r) :: rest =>
    (d, fun j => pctCell (last j) (ffill last r j))
      :: pctChangeAux (ffill last r) rest

/-- Embedding of `DataFrame.pct_change()` with its default forward-fill of missing
values: each cell is the fractional change from the previous (filled) row. -/
def pct_change {m : ℕ} (df : Frame m) : Frame m :=
  pctChangeAux (fun _ => none) df

def isAllNone {m : ℕ} (r : Row m) : Bool := decide (∀ j, r j = none)

/-- Embedding of `DataFrame.dropna(how="all")`: drop the rows all of whose cells are
missing, keeping the remaining rows in order. -/
def dropna_all {m : ℕ} (df : Frame m) : Frame m :=
  df.filter (fun x => !(isAllNone x.2))

/-- Embedding of `returns_from_prices` (line 35):
`prices.pct_change().dropna(how="all")`. -/
def returns_from_prices {m : ℕ} (prices : Frame m) : Frame m :=
  dropna_all (pct_change prices)

/-- Computes `1 + returns`, cellwise (missing cells stay missing). -/
def onePlus {m : ℕ} (df : Frame m) : Frame m :=
  df.map (fun x => (x.1, fun j => (x.2 j).map (fun v => 1 + v)))

/-- Embedding of `ret.iloc[0] = 1`: overwrite the first row with the constant 1. -/
def setFirstRowOne {m : ℕ} : Frame m → Frame m
  | [] => []
  | (d, _) :: rest => (d, fun _ => some 1) :: rest

def cumprodAux {m : ℕ} (acc : Fin m → ℚ) : Frame m → Frame m
  | [] => []
  | (d, r) :: rest =>
    (d, fun j => (r j).map (fun v => acc j * v)) ::
      cumprodAux
        (fun j => match r j with
          | some v => acc j * v
          | none => acc j) rest

/-- Column-wise cumulative product (`DataFrame.cumprod()`, which skips
missing cells in the running product). -/
def cumprod {m : ℕ} (df : Frame m) : Frame m := cumprodAux (fun _ => 1) df

/-- Embedding of `prices_from_returns` (lines 49-51):
`ret = 1 + returns; ret.iloc[0] = 1; return ret.cumprod()`. -/
def prices_from_returns {m : ℕ} (returns : Frame m) : Frame m :=
  cumprod (setFirstRowOne (onePlus returns))

/-- The defined (non-missing) cells of column `j`, in row order. -/
def colCells {m : ℕ} (df : Frame m) (j : Fin m) : List ℚ :=
  df.filterMap (fun x => x.2 j)

/-- Embedding of `DataFrame.mean()` of one column: pandas skips missing cells and yields
`NaN` for an empty column. -/
def colMean {m : ℕ} (df : Frame m) (j : Fin m) : Option ℚ :=
  if (colCells df j).length = 0 then none
  else some ((colCells df j).sum / ((colCells df j).length : ℚ))

/-- Embedding of `mean_historical_return` (lines 67-71):
`returns_from_prices(prices).mean() * frequency`, one value per asset in the
input's column order. -/
def mean_historical_return {m : ℕ} (prices : Frame m) (frequency : ℚ) :
    Fin m → Option ℚ :=
  fun j => (colMean (returns_from_prices prices) j).map (fun v => v * frequency)

/-- One step of pandas `ewm(span).mean()` state (`adjust=True` default):
numerator and weight-denominator both decay by `1 - alpha`; a present value
contributes itself with weight one, a missing value only decays. -/
def ewmStep (alpha : ℚ) (s : ℚ × ℚ) (x : Option ℚ) : ℚ × ℚ :=
  match x with
  | some v => ((1 - alpha) * s.1 + v, (1 - alpha) * s.2 + 1)
  | none => ((1 - alpha) * s.1, (1 - alpha) * s.2)

/-- The step `ewmStep` on a present value. -/
def stepD (alpha : ℚ) (s : ℚ × ℚ) (v : ℚ) : ℚ × ℚ :=
  ((1 - alpha) * s.1 + v, (1 - alpha) * s.2 + 1)

/-- Smoothed cell from the running state: missing until a first observation
arrives (zero total weight). -/
def mkCell (s : ℚ × ℚ) : Option ℚ :=
  if s.2 = 0 then none else some (s.1 / s.2)

def ewmAux {m : ℕ} (alpha : ℚ) (st : Fin m → ℚ × ℚ) : Frame m → Frame m
  | [] => []
  | (d, r) :: rest =>
    (d, fun j => mkCell (ewmStep alpha (st j) (r j)))
      :: ewmAux alpha (fun j => ewmStep alpha (st j) (r j)) rest

/-- Embedding of `DataFrame.ewm(span=span).mean()` with pandas defaults
(`adjust=True`, `ignore_na=False`); `alpha = 2 / (span + 1)` is the pandas
span parameterisation. -/
def ewm_mean {m : ℕ} (alpha : ℚ) (df : Frame m) : Frame m :=
  ewmAux alpha (fun _ => (0, 0)) df

/-- Embedding of `ema_historical_return` (lines 90-94):
`returns.ewm(span=span).mean().iloc[-1] * frequency`; `iloc[-1]` raises on an
empty frame, rendered as `none`. -/
def ema_historical_return {m : ℕ} (prices : Frame m) (frequency span : ℚ) :
    Option (Fin m → Option ℚ) :=
  ((ewm_mean (2 / (span + 1)) (returns_from_prices prices)).getLast?).map
    (fun x => fun j => (x.2 j).map (fun v => v * frequency))

/-- A fully-defined (dense) table injected into the frame type. -/
def toFrame {m : ℕ} (rows : List (ℕ × (Fin m → ℚ))) : Frame m :=
  rows.map (fun x => (x.1, fun j => some (x.2 j)))

/-- Reference returns following the spec's words: each cell is
`(p_t - p_(t-1)) / p_(t-1)`, rows carried from the second one on. -/
def specReturnsFrom {m : ℕ} (prev : Fin m → ℚ) :
    List (ℕ × (Fin m → ℚ)) → List (ℕ × (Fin m → ℚ))
  | [] => []
  | (d, r) :: rest =>
    (d, fun j => (r j - prev j) / prev j) :: specReturnsFrom r rest

/-- Reference return table of a dense price table (spec formula). -/
def specReturns {m : ℕ} : List (ℕ × (Fin m → ℚ)) → List (ℕ × (Fin m → ℚ))
  | [] => []
  | r0 :: rest => specReturnsFrom r0.2 rest

/-- Consecutive price ratios `p_t / p_(t-1)` (what `1 + return` equals). -/
def ratioFrom {m : ℕ} (prev : Fin m → ℚ) :
    List (ℕ × (Fin m → ℚ)) → List (ℕ × (Fin m → ℚ))
  | [] => []
  | (d, r) :: rest => (d, fun j => r j / prev j) :: ratioFrom r rest

/-- Prices normalised by a base row: cell `p_t j / base j`. -/
def normBy {m : ℕ} (base : Fin m → ℚ) (rows : List (ℕ × (Fin m → ℚ))) :
    List (ℕ × (Fin m → ℚ)) :=
  rows.map (fun x => (x.1, fun j => x.2 j / base j))

/-- Reference final exponentially-weighted mean of a column, following the
spec's words: geometric weights `(1 - alpha)^i` into the past, normalised. -/
def specEwmLast (alpha : ℚ) (xs : List ℚ) : ℚ :=
  (∑ i ∈ Finset.range xs.length, (1 - alpha) ^ (xs.length - 1 - i) * xs.getD i 0)
    / (∑ i ∈ Finset.range xs.length, (1 - alpha) ^ i)

section BlackLittermanTheorems

theorem npInv_eq_inv {n : ℕ} (M : Matrix (Fin n) (Fin n) ℚ) : npInv M = M⁻¹ := by
  rw [Matrix.inv_def, npInv, Ring.inverse_eq_inv]

/-- C1: for every prior `Pi`, covariance `Sigma`, views `Q`, view matrix `P`,
diagonal uncertainty `Omega` with nonzero diagonal and `tau` such that
`tau • Sigma` and the assembled matrix `A` are invertible,
`black_litterman_return` returns the vector `x` solving `A * x = b` with
`A = (tau • Sigma)⁻¹ + Pᵀ * Omega_inv * P` and
`b = (tau • Sigma)⁻¹ * Pi + Pᵀ * Omega_inv * Q` (`Omega_inv` the diagonal
matrix of reciprocals of `Omega`'s diagonal), and the result carries exactly
the index of `Pi`. -/
theorem blackLitterman_solves_system {n k : ℕ} (Pi : Series n)
    (Sigma : Matrix (Fin n) (Fin n) ℚ) (Q : Fin k → ℚ)
    (Omega : Matrix (Fin k) (Fin k) ℚ) (P : Matrix (Fin k) (Fin n) ℚ) (tau : ℚ)
    (hOmega : ∀ i, Omega i i ≠ 0)
    (hts : (tau • Sigma).det ≠ 0)
    (hA : ((tau • Sigma)⁻¹
        + P.transpose * Matrix.diagonal (fun i => (Omega i i)⁻¹) * P).det ≠ 0) :
    ∃ r : Series n,
      black_litterman_return Pi Sigma Q Omega P tau = some r ∧
      ((tau • Sigma)⁻¹
          + P.transpose * Matrix.diagonal (fun i => (Omega i i)⁻¹) * P).mulVec r.values
        = (tau • Sigma)⁻¹.mulVec Pi.values
          + (P.transpose * Matrix.diagonal (fun i => (Omega i i)⁻¹)).mulVec Q ∧
      r.index = Pi.index := by
  have hone : (fun i => 1 / Omega i i) = fun i => (Omega i i)⁻¹ := by
    funext i; rw [one_div]
  simp only [black_litterman_return, hone, npInv_eq_inv, if_neg hts, if_neg hA]
  refine ⟨_, rfl, ?_, rfl⟩
  rw [Matrix.mulVec_mulVec, Matrix.mul_nonsing_inv _ (isUnit_iff_ne_zero.mpr hA),
    Matrix.one_mulVec]

/-- Witness for C1 at a concrete input (`n = k = 1`, `Pi = [2]`,
`Sigma = [[1]]`, `Q = [3]`, `Omega = [[1]]`, `P = [[1]]`, `tau = 1`). -/
theorem blackLitterman_solves_system_witness :
    ∃ r : Series 1,
      black_litterman_return ⟨fun _ => "a", fun _ => 2⟩ (!![1] : Matrix (Fin 1) (Fin 1) ℚ)
        (fun _ => 3) (!![1] : Matrix (Fin 1) (Fin 1) ℚ)
        (!![1] : Matrix (Fin 1) (Fin 1) ℚ) 1 = some r ∧
      (((1 : ℚ) • (!![1] : Matrix (Fin 1) (Fin 1) ℚ))⁻¹
          + (!![1] : Matrix (Fin 1) (Fin 1) ℚ).transpose
            * Matrix.diagonal (fun i => ((!![1] : Matrix (Fin 1) (Fin 1) ℚ) i i)⁻¹)
            * !![1]).mulVec r.values
        = ((1 : ℚ) • (!![1] : Matrix (Fin 1) (Fin 1) ℚ))⁻¹.mulVec (fun _ => 2)
          + ((!![1] : Matrix (Fin 1) (Fin 1) ℚ).transpose
            * Matrix.diagonal (fun i => ((!![1] : Matrix (Fin 1) (Fin 1) ℚ) i i)⁻¹)).mulVec
              (fun _ => 3) ∧
      r.index = (fun _ => "a") := by
  refine blackLitterman_solves_system ⟨fun _ => "a", fun _ => 2⟩ !![1] (fun _ => 3)
    !![1] !![1] 1 (by decide) ?_ ?_
  · simp [Matrix.det_fin_one]
  · simp [Matrix.det_fin_one, Matrix.inv_def, Matrix.adjugate_fin_one,
      Matrix.add_apply, Matrix.mul_apply, Fin.sum_univ_one]

theorem smul_mat_inv {n : ℕ} (a : ℚ) (M : Matrix (Fin n) (Fin n) ℚ)
    (ha : a ≠ 0) (hM : M.det ≠ 0) : (a • M)⁻¹ = a⁻¹ • M⁻¹ :=
  Matrix.inv_eq_right_inv (by
    rw [Matrix.smul_mul, Matrix.mul_smul, smul_smul, mul_inv_cancel₀ ha, one_smul,
      Matrix.mul_nonsing_inv _ (isUnit_iff_ne_zero.mpr hM)])

/-- With both `P` and `Omega` defaulted, the scalar `tau` cancels out of the
assembled system: the call evaluates to a `tau`-free expression. -/
theorem blrOpt_default_eval {n : ℕ} (Pi : Series n)
    (Sigma : Matrix (Fin n) (Fin n) ℚ) (Q : Fin n → ℚ) (tau : ℚ) (h : tau ≠ 0) :
    blackLittermanOpt Pi Sigma Q none none tau
      = if Sigma.det = 0 then none
        else if (Sigma⁻¹ + Matrix.diagonal (fun i => 1 / Sigma i i)).det = 0 then none
        else some ⟨Pi.index,
          ((Sigma⁻¹ + Matrix.diagonal (fun i => 1 / Sigma i i))⁻¹).mulVec
            (Sigma⁻¹.mulVec Pi.values
              + (Matrix.diagonal (fun i => 1 / Sigma i i)).mulVec Q)⟩ := by
  by_cases hd : Sigma.det = 0
  · have hz : (tau • Sigma).det = 0 := by
      rw [Matrix.det_smul, hd, mul_zero]
    simp only [blackLittermanOpt, black_litterman_return, if_pos hz, if_pos hd]
  · have hds : (tau • Sigma).det ≠ 0 := by
      rw [Matrix.det_smul]
      exact mul_ne_zero (pow_ne_zero _ h) hd
    have hOinv : Matrix.diagonal (fun i => 1 / (tau • Sigma) i i)
        = tau⁻¹ • Matrix.diagonal (fun i => 1 / Sigma i i) := by
      ext i j
      by_cases hij : i = j
      · subst hij
        simp only [Matrix.diagonal_apply_eq, Matrix.smul_apply, smul_eq_mul, one_div,
          mul_inv]
      · simp only [Matrix.diagonal_apply_ne _ hij, Matrix.smul_apply, smul_eq_mul,
          mul_zero]
    simp only [blackLittermanOpt, black_litterman_return, npDiag, npInv_eq_inv,
      Matrix.transpose_one, Matrix.one_mul, Matrix.mul_one, Matrix.diagonal_apply_eq,
      if_neg hds, if_neg hd, hOinv, smul_mat_inv tau Sigma h hd,
      Matrix.smul_mulVec_assoc, ← smul_add]
    by_cases hM : (Sigma⁻¹ + Matrix.diagonal (fun i => 1 / Sigma i i)).det = 0
    · have hz2 : (tau⁻¹ • (Sigma⁻¹ + Matrix.diagonal (fun i => 1 / Sigma i i))).det = 0 := by
        rw [Matrix.det_smul, hM, mul_zero]
      rw [if_pos hz2, if_pos hM]
    · have hz2 : (tau⁻¹ • (Sigma⁻¹ + Matrix.diagonal (fun i => 1 / Sigma i i))).det ≠ 0 := by
        rw [Matrix.det_smul]
        exact mul_ne_zero (pow_ne_zero _ (inv_ne_zero h)) hM
      rw [if_neg hz2, if_neg hM]
      congr 1
      refine congrArg (Series.mk Pi.index) ?_
      rw [smul_mat_inv tau⁻¹ _ (inv_ne_zero h) hM, inv_inv,
        Matrix.smul_mulVec_assoc, Matrix.mulVec_smul, smul_smul,
        mul_inv_cancel₀ h, one_smul]

theorem inv_fin_one (M : Matrix (Fin 1) (Fin 1) ℚ) :
    M⁻¹ = (M 0 0)⁻¹ • (1 : Matrix (Fin 1) (Fin 1) ℚ) := by
  rw [Matrix.inv_def, Matrix.adjugate_fin_one, Matrix.det_fin_one, Ring.inverse_eq_inv]

/-- At the concrete one-asset input `Pi = [0]`, `Sigma = [[1]]`, `Q = [1]`,
the default-`P`/`Omega` call returns `[1/2]` for every nonzero `tau`. -/
theorem blrDefault_half (tau : ℚ) (h : tau ≠ 0) :
    blackLittermanOpt (n := 1) ⟨fun _ => "a", fun _ => 0⟩
        (!![1] : Matrix (Fin 1) (Fin 1) ℚ) (fun _ => 1) none none tau
      = some ⟨fun _ => "a", fun _ => 1 / 2⟩ := by
  rw [blrOpt_default_eval _ _ _ _ h]
  have hd1 : (!![1] : Matrix (Fin 1) (Fin 1) ℚ).det = 1 := by
    simp [Matrix.det_fin_one]
  have hi1 : (!![1] : Matrix (Fin 1) (Fin 1) ℚ)⁻¹ = 1 := by
    rw [inv_fin_one]
    norm_num
  have hM : ((!![1] : Matrix (Fin 1) (Fin 1) ℚ)⁻¹
      + Matrix.diagonal (fun i => 1 / (!![1] : Matrix (Fin 1) (Fin 1) ℚ) i i))
      = (2 : ℚ) • (1 : Matrix (Fin 1) (Fin 1) ℚ) := by
    rw [hi1]
    ext i j
    fin_cases i
    fin_cases j
    simp [Matrix.diagonal_apply_eq, Matrix.one_apply_eq, Matrix.smul_apply]
    norm_num
  rw [if_neg (by rw [hd1]; norm_num), hM]
  have hdet2 : ((2 : ℚ) • (1 : Matrix (Fin 1) (Fin 1) ℚ)).det = 2 := by
    rw [Matrix.det_fin_one, Matrix.smul_apply, Matrix.one_apply_eq, smul_eq_mul, mul_one]
  rw [if_neg (by rw [hdet2]; norm_num)]
  congr 1
  refine congrArg (Series.mk (fun _ => "a")) ?_
  funext i
  have hi0 : i = 0 := Subsingleton.elim i 0
  subst hi0
  have hM2 : ((2 : ℚ) • (1 : Matrix (Fin 1) (Fin 1) ℚ))⁻¹ 0 0 = 1 / 2 := by
    rw [inv_fin_one]
    simp [Matrix.smul_apply, Matrix.one_apply_eq, smul_eq_mul]
  simp only [Matrix.mulVec, Matrix.dotProduct, Fin.sum_univ_one, Pi.add_apply]
  rw [hM2, hi1]
  simp [Matrix.one_apply_eq, Matrix.diagonal_apply_eq]

/-- C3 counterexample: with default `P`/`Omega`, at the concrete input
`Pi = [0]`, `Sigma = [[1]]`, `Q = [1]`, the posterior does NOT approach `Pi`
as `tau` approaches `0` from above: it is `1/2` for every positive `tau`,
refuting the claimed limit in epsilon-delta form. -/
theorem blackLitterman_tau_limit_cex :
    ¬ (∀ ε : ℚ, 0 < ε → ∃ δ : ℚ, 0 < δ ∧ ∀ tau : ℚ, 0 < tau → tau < δ →
        ∀ r : Series 1,
          blackLittermanOpt ⟨fun _ => "a", fun _ => 0⟩
              (!![1] : Matrix (Fin 1) (Fin 1) ℚ) (fun _ => 1) none none tau
            = some r →
          |r.values 0 - 0| < ε) := by
  intro hcl
  obtain ⟨δ, hδ, hall⟩ := hcl (1 / 4) (by norm_num)
  have h2 : (0 : ℚ) < δ / 2 := by positivity
  have := hall (δ / 2) h2 (by linarith) ⟨fun _ => "a", fun _ => 1 / 2⟩
    (blrDefault_half (δ / 2) (ne_of_gt h2))
  norm_num at this
  rw [abs_of_pos (show (0 : ℚ) < 1 / 2 by norm_num)] at this
  norm_num at this

/-- C3 amended: with default `P` and `Omega`, the result of
`black_litterman_return` is independent of `tau` (for any nonzero `tau`):
the `tau` factors cancel, so as `tau → 0⁺` the posterior approaches the fixed
precision-weighted blend of `Pi` and `Q`, not `Pi`. -/
theorem blackLitterman_default_tau_independent {n : ℕ} (Pi : Series n)
    (Sigma : Matrix (Fin n) (Fin n) ℚ) (Q : Fin n → ℚ) (tau1 tau2 : ℚ)
    (h1 : tau1 ≠ 0) (h2 : tau2 ≠ 0) :
    blackLittermanOpt Pi Sigma Q none none tau1
      = blackLittermanOpt Pi Sigma Q none none tau2 := by
  rw [blrOpt_default_eval _ _ _ _ h1, blrOpt_default_eval _ _ _ _ h2]

/-- Witness for the amended C3 at concrete `tau1 = 1`, `tau2 = 1/1000`. -/
theorem blackLitterman_default_tau_independent_witness :
    blackLittermanOpt (n := 1) ⟨fun _ => "a", fun _ => 0⟩
        (!![1] : Matrix (Fin 1) (Fin 1) ℚ) (fun _ => 1) none none 1
      = blackLittermanOpt ⟨fun _ => "a", fun _ => 0⟩
        (!![1] : Matrix (Fin 1) (Fin 1) ℚ) (fun _ => 1) none none (1 / 1000) :=
  blackLitterman_default_tau_independent _ _ _ _ _ (by norm_num) (by norm_num)

/-- C2: when `P` is absent it defaults to the `n × n` identity
(`n = Sigma.shape[0]`), and when `Omega` is absent it defaults to the diagonal
matrix whose diagonal is that of `tau • (P * Sigma * Pᵀ)`; the result equals
the result of passing these values explicitly. -/
theorem blackLitterman_defaults {n k : ℕ} (Pi : Series n)
    (Sigma : Matrix (Fin n) (Fin n) ℚ) (Q : Fin n → ℚ) (Q' : Fin k → ℚ)
    (OmegaOpt : Option (Matrix (Fin n) (Fin n) ℚ))
    (P : Matrix (Fin k) (Fin n) ℚ) (tau : ℚ) :
    blackLittermanOpt Pi Sigma Q OmegaOpt none tau
        = blackLittermanOptOmega Pi Sigma Q OmegaOpt (1 : Matrix (Fin n) (Fin n) ℚ) tau ∧
    blackLittermanOptOmega Pi Sigma Q' none P tau
        = black_litterman_return Pi Sigma Q'
            (Matrix.diagonal (npDiag (tau • (P * Sigma * P.transpose)))) P tau ∧
    ∀ Omega : Matrix (Fin k) (Fin k) ℚ,
      blackLittermanOptOmega Pi Sigma Q' (some Omega) P tau
        = black_litterman_return Pi Sigma Q' Omega P tau := by
  refine ⟨?_, rfl, fun Omega => rfl⟩
  cases OmegaOpt <;> rfl

/-- C4: the result of `black_litterman_return` depends on `Omega` only through
its diagonal: two uncertainty matrices with equal diagonals yield equal
results. -/
theorem blackLitterman_omega_diagonal_only {n k : ℕ} (Pi : Series n)
    (Sigma : Matrix (Fin n) (Fin n) ℚ) (Q : Fin k → ℚ)
    (Omega1 Omega2 : Matrix (Fin k) (Fin k) ℚ) (P : Matrix (Fin k) (Fin n) ℚ)
    (tau : ℚ) (h : ∀ i, Omega1 i i = Omega2 i i) :
    black_litterman_return Pi Sigma Q Omega1 P tau
      = black_litterman_return Pi Sigma Q Omega2 P tau := by
  have hd : (fun i => 1 / Omega1 i i) = fun i => 1 / Omega2 i i := by
    funext i; rw [h i]
  simp only [black_litterman_return, hd]

/-- Witness for C4 at a concrete input: a non-diagonal `Omega1` and the
diagonal `Omega2` sharing its diagonal give the same result. -/
theorem blackLitterman_omega_diagonal_only_witness :
    black_litterman_return (n := 2) (k := 2) ⟨fun _ => "a", fun _ => 1⟩
        (!![2, 0; 0, 2] : Matrix (Fin 2) (Fin 2) ℚ) (fun _ => 3)
        (!![1, 5; 7, 1] : Matrix (Fin 2) (Fin 2) ℚ) (1 : Matrix (Fin 2) (Fin 2) ℚ) 1
      = black_litterman_return ⟨fun _ => "a", fun _ => 1⟩
        (!![2, 0; 0, 2] : Matrix (Fin 2) (Fin 2) ℚ) (fun _ => 3)
        (!![1, 0; 0, 1] : Matrix (Fin 2) (Fin 2) ℚ) (1 : Matrix (Fin 2) (Fin 2) ℚ) 1 :=
  blackLitterman_omega_diagonal_only ⟨fun _ => "a", fun _ => 1⟩ _ _ _ _ _ _ (by decide)

/-- C5: if `tau • Sigma` is singular, or the assembled matrix `A` is singular
at the solve step, `black_litterman_return` propagates the failure (`none`)
rather than returning a value. -/
theorem blackLitterman_singular_fails {n k : ℕ} (Pi : Series n)
    (Sigma : Matrix (Fin n) (Fin n) ℚ) (Q : Fin k → ℚ)
    (Omega : Matrix (Fin k) (Fin k) ℚ) (P : Matrix (Fin k) (Fin n) ℚ) (tau : ℚ)
    (h : (tau • Sigma).det = 0 ∨
      ((tau • Sigma)⁻¹
        + P.transpose * Matrix.diagonal (fun i => 1 / Omega i i) * P).det = 0) :
    black_litterman_return Pi Sigma Q Omega P tau = none := by
  rcases h with h | h
  · simp only [black_litterman_return, if_pos h]
  · by_cases hts : (tau • Sigma).det = 0
    · simp only [black_litterman_return, if_pos hts]
    · simp only [black_litterman_return, npInv_eq_inv, if_neg hts, if_pos h]

/-- Witness for C5: the spec's example input, a zero covariance matrix
(with the default `tau = 0.05`), makes the call fail. -/
theorem blackLitterman_singular_fails_witness :
    black_litterman_return (n := 1) (k := 1) ⟨fun _ => "a", fun _ => 2⟩
        (0 : Matrix (Fin 1) (Fin 1) ℚ) (fun _ => 3)
        (!![1] : Matrix (Fin 1) (Fin 1) ℚ) (!![1] : Matrix (Fin 1) (Fin 1) ℚ)
        (1 / 20) = none :=
  blackLitterman_singular_fails ⟨fun _ => "a", fun _ => 2⟩ 0 (fun _ => 3) !![1] !![1]
    (1 / 20) (Or.inl (by simp [Matrix.det_fin_one]))

/-- C10 counterexample: with `Sigma = [[1]]`, `tau = 1` (so `tau • Sigma` is
invertible), `Omega = [[-1]]` (nonzero diagonal), `Q = Pi` and `P` the
identity, the assembled matrix `A = (tau • Sigma)⁻¹ + Omega_inv` is zero, so
the solve step fails and the call returns `none` — not `Pi`. -/
theorem blackLitterman_prior_fixed_point_cex :
    (∀ i, (!![-1] : Matrix (Fin 1) (Fin 1) ℚ) i i ≠ 0) ∧
    ((1 : ℚ) • (!![1] : Matrix (Fin 1) (Fin 1) ℚ)).det ≠ 0 ∧
    black_litterman_return (n := 1) (k := 1) ⟨fun _ => "a", fun _ => 2⟩
        (!![1] : Matrix (Fin 1) (Fin 1) ℚ) (fun _ => 2)
        (!![-1] : Matrix (Fin 1) (Fin 1) ℚ) (1 : Matrix (Fin 1) (Fin 1) ℚ) 1
      = none := by
  have hts : ((1 : ℚ) • (!![1] : Matrix (Fin 1) (Fin 1) ℚ)).det ≠ 0 := by
    simp [Matrix.det_fin_one]
  have hA0 : (((1 : ℚ) • (!![1] : Matrix (Fin 1) (Fin 1) ℚ))⁻¹
      + Matrix.diagonal (fun i => 1 / (!![-1] : Matrix (Fin 1) (Fin 1) ℚ) i i)).det
      = 0 := by
    rw [Matrix.det_fin_one, Matrix.add_apply, inv_fin_one, Matrix.diagonal_apply_eq]
    simp [Matrix.smul_apply, Matrix.one_apply_eq]
  refine ⟨by decide, hts, ?_⟩
  simp only [black_litterman_return, npInv_eq_inv, Matrix.transpose_one, Matrix.one_mul,
    Matrix.mul_one, if_neg hts, if_pos hA0]

/-- C10 amended: restating the prior as the views (`Q = Pi`, `P = I`) returns
exactly `Pi`, for any `Omega` with nonzero diagonal and any `tau` with
`tau • Sigma` invertible, PROVIDED the assembled matrix
`A = (tau • Sigma)⁻¹ + Omega_inv` is also invertible (otherwise the solve
fails). -/
theorem blackLitterman_prior_fixed_point {n : ℕ} (Pi : Series n)
    (Sigma Omega : Matrix (Fin n) (Fin n) ℚ) (tau : ℚ)
    (hOmega : ∀ i, Omega i i ≠ 0)
    (hts : (tau • Sigma).det ≠ 0)
    (hA : ((tau • Sigma)⁻¹ + Matrix.diagonal (fun i => 1 / Omega i i)).det ≠ 0) :
    black_litterman_return Pi Sigma Pi.values Omega (1 : Matrix (Fin n) (Fin n) ℚ) tau
      = some Pi := by
  simp only [black_litterman_return, npInv_eq_inv, Matrix.transpose_one, Matrix.one_mul,
    Matrix.mul_one, if_neg hts, if_neg hA]
  have hb : (tau • Sigma)⁻¹.mulVec Pi.values
      + (Matrix.diagonal fun i => 1 / Omega i i).mulVec Pi.values
      = ((tau • Sigma)⁻¹ + Matrix.diagonal fun i => 1 / Omega i i).mulVec Pi.values :=
    (Matrix.add_mulVec _ _ _).symm
  rw [hb, Matrix.mulVec_mulVec, Matrix.nonsing_inv_mul _ (isUnit_iff_ne_zero.mpr hA),
    Matrix.one_mulVec]

/-- Witness for the amended C10 at a concrete input. -/
theorem blackLitterman_prior_fixed_point_witness :
    black_litterman_return (n := 1) ⟨fun _ => "a", fun _ => 2⟩
        (!![1] : Matrix (Fin 1) (Fin 1) ℚ)
        (Series.values ⟨fun _ => "a", fun _ => 2⟩)
        (!![1] : Matrix (Fin 1) (Fin 1) ℚ) (1 : Matrix (Fin 1) (Fin 1) ℚ) 1
      = some ⟨fun _ => "a", fun _ => 2⟩ :=
  blackLitterman_prior_fixed_point ⟨fun _ => "a", fun _ => 2⟩ !![1] !![1] 1
    (by decide) (by simp [Matrix.det_fin_one])
    (by simp [Matrix.det_fin_one, Matrix.inv_def, Matrix.adjugate_fin_one,
      Matrix.add_apply, Matrix.diagonal_apply_eq])

end BlackLittermanTheorems

section FrameTheorems

theorem toFrame_cons {m : ℕ} (d : ℕ) (r : Fin m → ℚ)
    (tl : List (ℕ × (Fin m → ℚ))) :
    toFrame ((d, r) :: tl) = (d, fun j => some (r j)) :: toFrame tl := rfl

theorem specReturnsFrom_length {m : ℕ} (rows : List (ℕ × (Fin m → ℚ))) :
    ∀ prev, (specReturnsFrom prev rows).length = rows.length := by
  induction rows with
  | nil => intro prev; rfl
  | cons hd tl ih =>
      intro prev
      cases hd with
      | mk d r => simp [specReturnsFrom, ih]

theorem pctChangeAux_dense {m : ℕ} (rows : List (ℕ × (Fin m → ℚ))) :
    ∀ prev : Fin m → ℚ, (∀ j, prev j ≠ 0) →
      (∀ x ∈ rows, ∀ j, x.2 j ≠ 0) →
      pctChangeAux (fun j => some (prev j)) (toFrame rows)
        = toFrame (specReturnsFrom prev rows) := by
  induction rows with
  | nil => intro prev _ _; rfl
  | cons hd tl ih =>
      intro prev hprev hrows
      cases hd with
      | mk d r =>
        have hr : ∀ j, r j ≠ 0 := fun j => hrows (d, r) (List.mem_cons_self _ _) j
        have htl : ∀ x ∈ tl, ∀ j, x.2 j ≠ 0 := fun x hx j =>
          hrows x (List.mem_cons_of_mem _ hx) j
        rw [toFrame_cons]
        simp only [pctChangeAux, specReturnsFrom]
        rw [toFrame_cons]
        congr 1
        · refine congrArg (Prod.mk d) ?_
          funext j
          show pctCell (some (prev j)) (some (r j)) = some ((r j - prev j) / prev j)
          rw [pctCell, sub_div, div_self (hprev j)]
        · exact ih r hr htl

theorem pct_change_dense {m : ℕ} (d : ℕ) (r : Fin m → ℚ)
    (rest : List (ℕ × (Fin m → ℚ)))
    (hr : ∀ j, r j ≠ 0) (hrest : ∀ x ∈ rest, ∀ j, x.2 j ≠ 0) :
    pct_change (toFrame ((d, r) :: rest))
      = (d, fun _ => none) :: toFrame (specReturnsFrom r rest) := by
  rw [pct_change, toFrame_cons]
  simp only [pctChangeAux]
  congr 1
  exact pctChangeAux_dense rest r hr hrest

theorem isAllNone_dense {m : ℕ} (hm : 0 < m) (v : Fin m → ℚ) :
    isAllNone (fun j => some (v j)) = false := by
  rw [isAllNone, decide_eq_false_iff_not]
  intro h
  exact Option.noConfusion (h ⟨0, hm⟩)

theorem dropna_all_dense {m : ℕ} (hm : 0 < m) (rows : List (ℕ × (Fin m → ℚ))) :
    dropna_all (toFrame rows) = toFrame rows := by
  induction rows with
  | nil => rfl
  | cons hd tl ih =>
      cases hd with
      | mk d r =>
        rw [toFrame_cons, dropna_all, List.filter_cons]
        simp only [isAllNone_dense hm, Bool.not_false, if_true]
        exact congrArg (List.cons _) ih

theorem dropna_all_cons_none {m : ℕ} (d : ℕ) (df : Frame m) :
    dropna_all ((d, fun _ => none) :: df) = dropna_all df := by
  rw [dropna_all, List.filter_cons]
  have hall : isAllNone (m := m) (fun _ => none) = true := by
    rw [isAllNone, decide_eq_true_eq]
    intro j
    rfl
  simp only [hall, Bool.not_true, if_false]
  rfl

theorem returns_from_prices_dense {m : ℕ} (hm : 0 < m) (d : ℕ) (r : Fin m → ℚ)
    (rest : List (ℕ × (Fin m → ℚ))) (hr : ∀ j, r j ≠ 0)
    (hrest : ∀ x ∈ rest, ∀ j, x.2 j ≠ 0) :
    returns_from_prices (toFrame ((d, r) :: rest))
      = toFrame (specReturnsFrom r rest) := by
  rw [returns_from_prices, pct_change_dense d r rest hr hrest, dropna_all_cons_none,
    dropna_all_dense hm]

theorem specReturnsFrom_const {m : ℕ} (c : Fin m → ℚ)
    (rows : List (ℕ × (Fin m → ℚ))) :
    ∀ prev, prev = c → (∀ x ∈ rows, x.2 = c) →
      ∀ x ∈ specReturnsFrom prev rows, ∀ j, x.2 j = 0 := by
  induction rows with
  | nil => intro prev _ _ x hx; exact absurd hx (List.not_mem_nil x)
  | cons hd tl ih =>
      intro prev hprev hrows
      cases hd with
      | mk d r =>
        intro x hx j
        rw [specReturnsFrom] at hx
        rcases List.mem_cons.mp hx with h | h
        · subst h
          have hr : r = c := hrows (d, r) (List.mem_cons_self _ _)
          simp only [hr, hprev, sub_self, zero_div]
        · exact ih r (hrows (d, r) (List.mem_cons_self _ _))
            (fun x hx => hrows x (List.mem_cons_of_mem _ hx)) x h j

/-- C6: for a dense positive price table with at least two rows,
`returns_from_prices` is exactly the spec's table of fractional changes
`(p_t - p_(t-1)) / p_(t-1)` with the (undefined) leading row dropped,
preserving column order and the remaining rows' labels and order; and if
every asset's price is constant across time, every resulting cell is zero. -/
theorem returns_from_prices_spec {m : ℕ} (rows : List (ℕ × (Fin m → ℚ)))
    (hm : 0 < m) (hlen : 2 ≤ rows.length)
    (hpos : ∀ x ∈ rows, ∀ j, 0 < x.2 j) :
    returns_from_prices (toFrame rows) = toFrame (specReturns rows) ∧
      (∀ c : Fin m → ℚ, (∀ x ∈ rows, x.2 = c) →
        ∀ y ∈ returns_from_prices (toFrame rows), ∀ j, y.2 j = some 0) := by
  obtain ⟨d, r, rest, rfl⟩ : ∃ d r rest, rows = (d, r) :: rest := by
    cases rows with
    | nil => simp at hlen
    | cons a l => exact ⟨a.1, a.2, l, by rw [Prod.mk.eta]⟩
  have hr : ∀ j, r j ≠ 0 := fun j => ne_of_gt (hpos (d, r) (List.mem_cons_self _ _) j)
  have hrest : ∀ x ∈ rest, ∀ j, x.2 j ≠ 0 := fun x hx j =>
    ne_of_gt (hpos x (List.mem_cons_of_mem _ hx) j)
  have hmain : returns_from_prices (toFrame ((d, r) :: rest))
      = toFrame (specReturns ((d, r) :: rest)) :=
    returns_from_prices_dense hm d r rest hr hrest
  refine ⟨hmain, ?_⟩
  intro c hc y hy j
  rw [hmain] at hy
  obtain ⟨x, hx, rfl⟩ := List.mem_map.mp hy
  have : x.2 j = 0 :=
    specReturnsFrom_const c rest r (hc (d, r) (List.mem_cons_self _ _))
      (fun z hz => hc z (List.mem_cons_of_mem _ hz)) x hx j
  simp only [this]

/-- Witness for C6 at the concrete dense table `[100, 110, 121]` (one
asset). -/
theorem returns_from_prices_spec_witness :
    (returns_from_prices
        (toFrame (m := 1) [(0, fun _ => 100), (1, fun _ => 110), (2, fun _ => 121)])
      = toFrame (specReturns [(0, fun _ => 100), (1, fun _ => 110), (2, fun _ => 121)])) ∧
      (∀ c : Fin 1 → ℚ,
        (∀ x ∈ [((0 : ℕ), fun _ => (100 : ℚ)), (1, fun _ => 110), (2, fun _ => 121)],
          x.2 = c) →
        ∀ y ∈ returns_from_prices
          (toFrame (m := 1) [(0, fun _ => 100), (1, fun _ => 110), (2, fun _ => 121)]),
          ∀ j, y.2 j = some 0) :=
  returns_from_prices_spec [(0, fun _ => 100), (1, fun _ => 110), (2, fun _ => 121)]
    (by decide) (by decide) (by decide)

theorem onePlus_cons {m : ℕ} (d : ℕ) (r : Row m) (l : Frame m) :
    onePlus ((d, r) :: l)
      = (d, fun j => (r j).map (fun v => 1 + v)) :: onePlus l := rfl

theorem onePlus_specReturns {m : ℕ} (rows : List (ℕ × (Fin m → ℚ))) :
    ∀ prev : Fin m → ℚ, (∀ j, prev j ≠ 0) →
      (∀ x ∈ rows, ∀ j, x.2 j ≠ 0) →
      onePlus (toFrame (specReturnsFrom prev rows))
        = toFrame (ratioFrom prev rows) := by
  induction rows with
  | nil => intro prev _ _; rfl
  | cons hd tl ih =>
      intro prev hprev hrows
      cases hd with
      | mk d r =>
        have hr : ∀ j, r j ≠ 0 := fun j => hrows (d, r) (List.mem_cons_self _ _) j
        have htl : ∀ x ∈ tl, ∀ j, x.2 j ≠ 0 := fun x hx j =>
          hrows x (List.mem_cons_of_mem _ hx) j
        simp only [specReturnsFrom, ratioFrom]
        rw [toFrame_cons, toFrame_cons, onePlus_cons]
        congr 1
        · refine congrArg (Prod.mk d) ?_
          funext j
          show some (1 + (r j - prev j) / prev j) = some (r j / prev j)
          congr 1
          rw [sub_div, div_self (hprev j)]
          ring
        · exact ih r hr htl

theorem cumprodAux_ratio {m : ℕ} (base : Fin m → ℚ)
    (rows : List (ℕ × (Fin m → ℚ))) :
    ∀ prev : Fin m → ℚ, (∀ j, prev j ≠ 0) → (∀ x ∈ rows, ∀ j, x.2 j ≠ 0) →
      cumprodAux (fun j => prev j / base j) (toFrame (ratioFrom prev rows))
        = toFrame (normBy base rows) := by
  induction rows with
  | nil => intro prev _ _; rfl
  | cons hd tl ih =>
      intro prev hprev hrows
      cases hd with
      | mk d r =>
        have hr : ∀ j, r j ≠ 0 := fun j => hrows (d, r) (List.mem_cons_self _ _) j
        have htl : ∀ x ∈ tl, ∀ j, x.2 j ≠ 0 := fun x hx j =>
          hrows x (List.mem_cons_of_mem _ hx) j
        have hcell : ∀ j, prev j / base j * (r j / prev j) = r j / base j := fun j => by
          rw [div_mul_div_comm, mul_comm (base j) (prev j),
            mul_div_mul_left _ _ (hprev j)]
        simp only [ratioFrom, normBy, List.map_cons]
        rw [toFrame_cons]
        simp only [cumprodAux]
        congr 1
        · refine congrArg (Prod.mk d) ?_
          funext j
          show some (prev j / base j * (r j / prev j)) = some (r j / base j)
          rw [hcell j]
        · show cumprodAux (fun j => prev j / base j * (r j / prev j))
            (toFrame (ratioFrom r tl)) = toFrame (normBy base tl)
          rw [show (fun j => prev j / base j * (r j / prev j))
              = fun j => r j / base j from funext hcell]
          have := ih r hr htl
          rw [show toFrame (normBy base tl)
              = List.map (fun x => (x.1, fun j => some (x.2 j))) (normBy base tl)
            from rfl] at this ⊢
          exact this

theorem roundtrip_dense {m : ℕ} (hm : 0 < m)
    (d0 d1 : ℕ) (p0 p1 : Fin m → ℚ) (rest : List (ℕ × (Fin m → ℚ)))
    (hpos : ∀ x ∈ (d0, p0) :: (d1, p1) :: rest, ∀ j, 0 < x.2 j) :
    prices_from_returns (returns_from_prices (toFrame ((d0, p0) :: (d1, p1) :: rest)))
      = (d1, fun _ => some 1) :: toFrame (normBy p1 rest) := by
  have h0 : ∀ j, p0 j ≠ 0 := fun j => ne_of_gt (hpos _ (List.mem_cons_self _ _) j)
  have h1 : ∀ j, p1 j ≠ 0 := fun j =>
    ne_of_gt (hpos _ (List.mem_cons_of_mem _ (List.mem_cons_self _ _)) j)
  have hrest : ∀ x ∈ rest, ∀ j, x.2 j ≠ 0 := fun x hx j =>
    ne_of_gt (hpos x (List.mem_cons_of_mem _ (List.mem_cons_of_mem _ hx)) j)
  have htail : ∀ x ∈ (d1, p1) :: rest, ∀ j, x.2 j ≠ 0 := by
    intro x hx j
    rcases List.mem_cons.mp hx with h | h
    · subst h; exact h1 j
    · exact hrest x h j
  rw [returns_from_prices_dense hm d0 p0 ((d1, p1) :: rest) h0 htail]
  rw [show specReturnsFrom p0 ((d1, p1) :: rest)
      = (d1, fun j => (p1 j - p0 j) / p0 j) :: specReturnsFrom p1 rest from rfl]
  rw [prices_from_returns, toFrame_cons, onePlus_cons]
  rw [show setFirstRowOne ((d1, fun j => ((some ((p1 j - p0 j) / p0 j)).map
        (fun v => 1 + v))) :: onePlus (toFrame (specReturnsFrom p1 rest)))
      = (d1, fun _ => some 1) :: onePlus (toFrame (specReturnsFrom p1 rest)) from rfl]
  rw [onePlus_specReturns rest p1 h1 hrest, cumprod]
  simp only [cumprodAux]
  congr 1
  · refine congrArg (Prod.mk d1) ?_
    funext j
    show some ((1 : ℚ) * 1) = some 1
    rw [one_mul]
  · show cumprodAux (fun _ => (1 : ℚ) * 1) (toFrame (ratioFrom p1 rest))
      = toFrame (normBy p1 rest)
    rw [show (fun _ : Fin m => (1 : ℚ) * 1) = fun j => p1 j / p1 j from
      funext fun j => by rw [one_mul, div_self (h1 j)]]
    exact cumprodAux_ratio p1 rest p1 h1 hrest

/-- C7 amended: for a dense positive price table with at least two rows, the
round trip `prices_from_returns (returns_from_prices P)` has one row fewer
than `P`; its first row is exactly 1 for every asset and carries the label of
`P`'s SECOND row, and each later cell equals the price divided by that
asset's price in `P`'s second row (the base period is the first return date:
the first period's change is overwritten by the forced base-1 row). -/
theorem prices_roundtrip_normalized {m : ℕ} (hm : 0 < m)
    (d0 d1 : ℕ) (p0 p1 : Fin m → ℚ) (rest : List (ℕ × (Fin m → ℚ)))
    (hpos : ∀ x ∈ (d0, p0) :: (d1, p1) :: rest, ∀ j, 0 < x.2 j) :
    prices_from_returns (returns_from_prices (toFrame ((d0, p0) :: (d1, p1) :: rest)))
      = (d1, fun _ => some 1) :: toFrame (normBy p1 rest) :=
  roundtrip_dense hm d0 d1 p0 p1 rest hpos

/-- Witness for the amended C7 at the dense table `[1, 2, 6]` (one asset). -/
theorem prices_roundtrip_normalized_witness :
    prices_from_returns (returns_from_prices
        (toFrame (m := 1) [(0, fun _ => 1), (1, fun _ => 2), (2, fun _ => 6)]))
      = ((1 : ℕ), fun _ => some (1 : ℚ))
          :: toFrame (normBy (fun _ => 2) [(2, fun _ => 6)]) :=
  prices_roundtrip_normalized (by decide) 0 1 (fun _ => 1) (fun _ => 2)
    [(2, fun _ => 6)] (by decide)

/-- C7 counterexample: for the dense price table `[1, 2, 6]` (one asset) the
round trip yields pseudo-prices `[1, 3]`: the second cell is `6 / 2 = 3`,
the price divided by the asset's SECOND price, and differs from the claimed
price-divided-by-first-price values `6 / 1` and `2 / 1` under either row
alignment. -/
theorem prices_roundtrip_cex :
    prices_from_returns (returns_from_prices
        (toFrame (m := 1) [(0, fun _ => 1), (1, fun _ => 2), (2, fun _ => 6)]))
      = toFrame [(1, fun _ => 1), (2, fun _ => 3)] ∧
    (3 : ℚ) ≠ 6 / 1 ∧ (3 : ℚ) ≠ 2 / 1 := by
  refine ⟨?_, by norm_num, by norm_num⟩
  rw [roundtrip_dense (by decide) 0 1 (fun _ => 1) (fun _ => 2) [(2, fun _ => 6)]
    (by decide)]
  simp only [toFrame, normBy, List.map_cons, List.map_nil]
  congr 1
  congr 1
  refine congrArg (Prod.mk 2) ?_
  funext j
  show some ((6 : ℚ) / 2) = some 3
  norm_num

theorem colCells_toFrame {m : ℕ} (rows : List (ℕ × (Fin m → ℚ))) (j : Fin m) :
    colCells (toFrame rows) j = rows.map (fun x => x.2 j) := by
  rw [colCells, toFrame, List.filterMap_map]
  exact congrFun (List.filterMap_eq_map fun x => x.2 j) rows

/-- C8: `mean_historical_return` is, per asset and in the input's column
order, the arithmetic mean of that asset's column of the return table
(`returns_from_prices`) multiplied by `frequency`. -/
theorem mean_historical_return_spec {m : ℕ} (rows : List (ℕ × (Fin m → ℚ)))
    (frequency : ℚ) (hm : 0 < m) (hlen : 2 ≤ rows.length)
    (hpos : ∀ x ∈ rows, ∀ j, 0 < x.2 j) (j : Fin m) :
    mean_historical_return (toFrame rows) frequency j
      = some ((((specReturns rows).map (fun x => x.2 j)).sum
          / (((specReturns rows).map (fun x => x.2 j)).length : ℚ)) * frequency) := by
  obtain ⟨d, r, rest, rfl⟩ : ∃ d r rest, rows = (d, r) :: rest := by
    cases rows with
    | nil => simp at hlen
    | cons a l => exact ⟨a.1, a.2, l, by rw [Prod.mk.eta]⟩
  have hr : ∀ j, r j ≠ 0 := fun j => ne_of_gt (hpos (d, r) (List.mem_cons_self _ _) j)
  have hrest : ∀ x ∈ rest, ∀ j, x.2 j ≠ 0 := fun x hx j =>
    ne_of_gt (hpos x (List.mem_cons_of_mem _ hx) j)
  have hlen1 : rest.length ≠ 0 := by
    simp only [List.length_cons] at hlen
    omega
  simp only [mean_historical_return, specReturns]
  rw [returns_from_prices_dense hm d r rest hr hrest, colMean, colCells_toFrame]
  rw [List.length_map, specReturnsFrom_length rest r]
  rw [if_neg hlen1]
  rfl

/-- Witness for C8: the spec's example, a two-row one-asset table
`[100, 110]` with `frequency = 1`, gives exactly `0.10`. -/
theorem mean_historical_return_spec_witness :
    mean_historical_return (toFrame (m := 1) [(0, fun _ => 100), (1, fun _ => 110)]) 1 0
      = some (1 / 10) := by
  have h := mean_historical_return_spec (m := 1)
    [(0, fun _ => 100), (1, fun _ => 110)] 1 (by decide) (by decide) (by decide) 0
  rw [h]
  norm_num [specReturns, specReturnsFrom]

theorem getLast?_cons_of_ne_nil {α : Type} (a : α) (l : List α) (h : l ≠ []) :
    (a :: l).getLast? = l.getLast? := by
  cases l with
  | nil => exact absurd rfl h
  | cons b tl => exact List.getLast?_cons_cons

theorem ewmFold_den (alpha : ℚ) (xs : List ℚ) :
    ∀ s0 : ℚ × ℚ,
      (xs.foldl (stepD alpha) s0).2
        = (1 - alpha) ^ xs.length * s0.2
          + ∑ i ∈ Finset.range xs.length, (1 - alpha) ^ i := by
  induction xs with
  | nil => intro s0; simp
  | cons x tl ih =>
      intro s0
      rw [List.foldl_cons, ih (stepD alpha s0 x)]
      rw [show (stepD alpha s0 x).2 = (1 - alpha) * s0.2 + 1 from rfl]
      rw [List.length_cons, Finset.sum_range_succ]
      ring

theorem ewmFold_num (alpha : ℚ) (xs : List ℚ) :
    ∀ s0 : ℚ × ℚ,
      (xs.foldl (stepD alpha) s0).1
        = (1 - alpha) ^ xs.length * s0.1
          + ∑ i ∈ Finset.range xs.length,
              (1 - alpha) ^ (xs.length - 1 - i) * xs.getD i 0 := by
  induction xs with
  | nil => intro s0; simp
  | cons x tl ih =>
      intro s0
      rw [List.foldl_cons, ih (stepD alpha s0 x)]
      rw [show (stepD alpha s0 x).1 = (1 - alpha) * s0.1 + x from rfl]
      rw [List.length_cons, Finset.sum_range_succ']
      have hexp : ∀ i ∈ Finset.range tl.length,
          (1 - alpha) ^ (tl.length + 1 - 1 - (i + 1)) * (x :: tl).getD (i + 1) 0
            = (1 - alpha) ^ (tl.length - 1 - i) * tl.getD i 0 := by
        intro i _
        rw [show (x :: tl).getD (i + 1) 0 = tl.getD i 0 from rfl]
        congr 2
        omega
      rw [Finset.sum_congr rfl hexp,
        show (x :: tl).getD 0 0 = x from rfl,
        show tl.length + 1 - 1 - 0 = tl.length from by omega]
      ring

theorem geomSum_pos_of_abs_lt_one (x : ℚ) (N : ℕ) (h1 : -1 < x) (h2 : x < 1)
    (hN : N ≠ 0) : 0 < ∑ i ∈ Finset.range N, x ^ i := by
  have hxy : (∑ i ∈ Finset.range N, x ^ i) * (x - 1) = x ^ N - 1 := geom_sum_mul x N
  have hx1 : x - 1 < 0 := by linarith
  have hpow : x ^ N < 1 := by
    have habs : |x| < 1 := abs_lt.mpr ⟨h1, h2⟩
    calc x ^ N ≤ |x ^ N| := le_abs_self _
      _ = |x| ^ N := abs_pow x N
      _ < 1 := pow_lt_one₀ (abs_nonneg x) habs hN
  have hS : ∑ i ∈ Finset.range N, x ^ i = (x ^ N - 1) / (x - 1) :=
    (eq_div_iff (ne_of_lt hx1)).mpr hxy
  rw [hS]
  exact div_pos_of_neg_of_neg (by linarith) hx1

theorem ewmAux_cons {m : ℕ} (alpha : ℚ) (st : Fin m → ℚ × ℚ) (d : ℕ) (r : Row m)
    (l : Frame m) :
    ewmAux alpha st ((d, r) :: l)
      = (d, fun j => mkCell (ewmStep alpha (st j) (r j)))
        :: ewmAux alpha (fun j => ewmStep alpha (st j) (r j)) l := rfl

theorem ewmAux_toFrame_last {m : ℕ} (alpha : ℚ) (rows : List (ℕ × (Fin m → ℚ))) :
    ∀ (r : ℕ × (Fin m → ℚ)) (st : Fin m → ℚ × ℚ),
      (ewmAux alpha st (toFrame (r :: rows))).getLast?
        = some (((r :: rows).getLast (List.cons_ne_nil r rows)).1,
            fun j => mkCell
              (((r :: rows).map (fun x => x.2 j)).foldl (stepD alpha) (st j))) := by
  induction rows with
  | nil =>
      intro r st
      rfl
  | cons r2 tl ih =>
      intro r st
      cases r with
      | mk d v =>
        rw [toFrame_cons, ewmAux_cons]
        rw [getLast?_cons_of_ne_nil _ _
          (by rw [toFrame_cons, ewmAux_cons]; exact List.cons_ne_nil _ _)]
        rw [ih]
        rfl

/-- C9: for a dense positive price table with at least two rows and positive
`span`, `ema_historical_return` returns, per asset, ONLY the final (most
recent) exponentially-weighted moving average of that asset's return column
(pandas weights `(1-alpha)^i` into the past with `alpha = 2/(span+1)`),
multiplied by `frequency` — not any earlier smoothed value and not the whole
smoothed series. -/
theorem ema_historical_return_spec {m : ℕ} (rows : List (ℕ × (Fin m → ℚ)))
    (frequency span : ℚ) (hm : 0 < m) (hlen : 2 ≤ rows.length)
    (hpos : ∀ x ∈ rows, ∀ j, 0 < x.2 j) (hspan : 0 < span) :
    ema_historical_return (toFrame rows) frequency span
      = some (fun j => some
          (specEwmLast (2 / (span + 1)) ((specReturns rows).map (fun x => x.2 j))
            * frequency)) := by
  obtain ⟨d, r, rest, rfl⟩ : ∃ d r rest, rows = (d, r) :: rest := by
    cases rows with
    | nil => simp at hlen
    | cons a l => exact ⟨a.1, a.2, l, by rw [Prod.mk.eta]⟩
  obtain ⟨d2, r2, rest2, rfl⟩ : ∃ d2 r2 rest2, rest = (d2, r2) :: rest2 := by
    cases rest with
    | nil => simp at hlen
    | cons a l => exact ⟨a.1, a.2, l, by rw [Prod.mk.eta]⟩
  have hr : ∀ j, r j ≠ 0 := fun j => ne_of_gt (hpos (d, r) (List.mem_cons_self _ _) j)
  have hrest : ∀ x ∈ (d2, r2) :: rest2, ∀ j, x.2 j ≠ 0 := fun x hx j =>
    ne_of_gt (hpos x (List.mem_cons_of_mem _ hx) j)
  have halpha0 : 0 < 2 / (span + 1) := by positivity
  have halpha2 : 2 / (span + 1) < 2 := by
    rw [div_lt_iff₀ (by linarith : (0 : ℚ) < span + 1)]
    nlinarith
  simp only [ema_historical_return, specReturns]
  rw [returns_from_prices_dense hm d r ((d2, r2) :: rest2) hr hrest]
  rw [show specReturnsFrom r ((d2, r2) :: rest2)
      = (d2, fun j => (r2 j - r j) / r j) :: specReturnsFrom r2 rest2 from rfl]
  rw [ewm_mean, ewmAux_toFrame_last]
  simp only [Option.map_some']
  congr 1
  funext j
  have hden : ∀ xs : List ℚ, xs ≠ [] →
      0 < (xs.foldl (stepD (2 / (span + 1))) ((0 : ℚ), (0 : ℚ))).2 := by
    intro xs hxs
    rw [ewmFold_den]
    simp only [mul_zero, zero_add]
    refine geomSum_pos_of_abs_lt_one _ _ (by linarith) (by linarith) ?_
    intro hzero
    exact hxs (List.length_eq_zero.mp hzero)
  have hcne : (((d2, fun j' => (r2 j' - r j') / r j') :: specReturnsFrom r2 rest2).map
      (fun x => x.2 j)) ≠ [] := by
    rw [List.map_cons]
    exact List.cons_ne_nil _ _
  have hd := hden _ hcne
  rw [mkCell, if_neg (ne_of_gt hd)]
  rw [Option.map_some']
  congr 1
  rw [specEwmLast, ewmFold_num, ewmFold_den]
  simp only [mul_zero, zero_add]

/-- Witness for C9: at the dense table `[100, 110, 121]` with `span = 1`
and `frequency = 1` the final smoothed value is exactly `1/10`. -/
theorem ema_historical_return_spec_witness :
    ema_historical_return
        (toFrame (m := 1) [(0, fun _ => 100), (1, fun _ => 110), (2, fun _ => 121)]) 1 1
      = some (fun _ => some (1 / 10)) := by
  have h := ema_historical_return_spec (m := 1)
    [(0, fun _ => 100), (1, fun _ => 110), (2, fun _ => 121)] 1 1
    (by decide) (by decide) (by decide) (by norm_num)
  rw [h]
  congr 1
  funext j
  congr 1
  rw [specEwmLast]
  norm_num [specReturns, specReturnsFrom, Finset.sum_range_succ]

end FrameTheorems

end ExpectedReturns
